import Mathlib

/-!
Verification of `scripts/generate_heatmap.py` (AzureCommitsExporter).

Shallow embedding conventions:
* A normalized commit record (the common shape both fetchers produce) is
  `Commit` with an author email and an ISO-8601 author date string.
* Python dicts built by `aggregate_by_date` are association lists
  `List (String × Nat)` in insertion order; `defaultdict` increment is `bump`.
* Calendar days are modelled as integers counting days since 1970-01-01
  (a Thursday), so Python's `date.weekday()` (Monday = 0 … Sunday = 6) is
  `(d + 3) % 7`, and `date - timedelta(days = k)` is `d - k`.
  `calculate_streak` and `generate_svg` consult the counts dict only through
  `commit_counts.get(date.strftime("%Y-%m-%d"), 0)`; since `strftime` is
  injective on days, that composite is modelled as a function `Int → Nat`.
* Python floats: `get_color_level` divides two ints; it is modelled with
  exact rational division (`ℚ`).
* The `while True` loops of the script are modelled with explicit fuel;
  running out of fuel returns `none`, so termination of the Python loop is
  `∃ fuel, (loop … fuel).isSome`.
-/

namespace Heatmap

/-- A normalized commit record: author email and ISO-8601 author date. -/
structure Commit where
  email : String
  date : String
deriving DecidableEq, Repr

/-! ### Configuration: AUTHOR_EMAILS parsing (line 25)

Python string primitives are modelled over the underlying character
lists so that concrete instances evaluate inside the kernel. -/

/-- Model of Python `str.lower()`. -/
def strLower (s : String) : String :=
  ⟨s.data.map Char.toLower⟩

/-- Model of Python `str.strip()`: drop leading and trailing whitespace. -/
def strStrip (s : String) : String :=
  ⟨((s.data.dropWhile Char.isWhitespace).reverse.dropWhile
      Char.isWhitespace).reverse⟩

/-- Model of Python `str.split(",")`. -/
def splitCommas (s : String) : List String :=
  (List.splitOn ',' s.data).map String.mk

/-- Embedding of
`[e.strip().lower() for e in os.environ.get("AUTHOR_EMAILS", "").split(",") if e.strip()]`. -/
def parseAuthorEmails (s : String) : List String :=
  (splitCommas s).filterMap
    (fun e => if strStrip e = "" then none else some (strLower (strStrip e)))

/-! ### aggregate_by_date (lines 247-254) -/

/-- One `counts[date_str] += 1` step of the `defaultdict(int)`: increment the
entry if the key is present, else append it with value 1. -/
def bump (m : List (String × Nat)) (k : String) : List (String × Nat) :=
  match m with
  | [] => [(k, 1)]
  | (k', v) :: rest => if k' = k then (k', v + 1) :: rest else (k', v) :: bump rest k

/-- One loop iteration of `aggregate_by_date`: take the first ten characters
of the record's date and, when nonempty, count it. -/
def aggStep (m : List (String × Nat)) (c : Commit) : List (String × Nat) :=
  if c.date.take 10 = "" then m else bump m (c.date.take 10)

/-- Embedding of `aggregate_by_date`: take the first ten characters of each
record's date, skip empty strings, and count occurrences. -/
def aggregate_by_date (commits : List Commit) : List (String × Nat) :=
  commits.foldl aggStep []

/-- Sum of the values of a counts dict. -/
def sumValues (m : List (String × Nat)) : Nat :=
  (m.map Prod.snd).sum

/-- Keys of a counts dict. -/
def keys (m : List (String × Nat)) : List String :=
  m.map Prod.fst

/-! ### get_color_level (lines 293-307) -/

/-- Embedding of `get_color_level`; the float ratio `count / max_count` is
modelled as an exact rational (the Python local `ratio` is inlined). -/
def get_color_level (count maxCount : Nat) : Nat :=
  if count = 0 then 0
  else if maxCount = 0 then 0
  else if (count : ℚ) / (maxCount : ℚ) ≤ 1 / 4 then 1
  else if (count : ℚ) / (maxCount : ℚ) ≤ 1 / 2 then 2
  else if (count : ℚ) / (maxCount : ℚ) ≤ 3 / 4 then 3
  else 4

/-! ### Lemmas about bump / aggregate_by_date -/

theorem sumValues_bump (m : List (String × Nat)) (k : String) :
    sumValues (bump m k) = sumValues m + 1 := by
  induction m with
  | nil => simp [bump, sumValues]
  | cons p rest ih =>
    obtain ⟨k', v⟩ := p
    by_cases h : k' = k
    · simp [bump, h, sumValues]
      omega
    · simp [bump, h, sumValues] at *
      omega

theorem sumValues_foldl (commits : List Commit) (m : List (String × Nat)) :
    sumValues (commits.foldl aggStep m) =
    sumValues m + (commits.filter (fun c => c.date.take 10 ≠ "")).length := by
  induction commits generalizing m with
  | nil => simp
  | cons c rest ih =>
    by_cases h : c.date.take 10 = ""
    · simp [List.foldl_cons, aggStep, h, ih]
    · simp [List.foldl_cons, aggStep, h, ih, sumValues_bump]
      omega

theorem mem_bump_snd_pos (m : List (String × Nat)) (k : String)
    (hm : ∀ p ∈ m, 1 ≤ p.2) : ∀ p ∈ bump m k, 1 ≤ p.2 := by
  induction m with
  | nil =>
    intro p hp
    simp only [bump, List.mem_singleton] at hp
    simp [hp]
  | cons q rest ih =>
    obtain ⟨k', v⟩ := q
    intro p hp
    by_cases h : k' = k
    · simp only [bump, if_pos h] at hp
      rcases List.mem_cons.mp hp with rfl | hp
      · simp
      · exact hm p (List.mem_cons_of_mem _ hp)
    · simp only [bump, if_neg h] at hp
      rcases List.mem_cons.mp hp with rfl | hp
      · exact hm (k', v) (List.mem_cons_self _ _)
      · exact ih (fun q hq => hm q (List.mem_cons_of_mem _ hq)) p hp

theorem mem_keys_bump (m : List (String × Nat)) (k k' : String) :
    k' ∈ keys (bump m k) ↔ k' ∈ keys m ∨ k' = k := by
  induction m with
  | nil => simp [bump, keys]
  | cons q rest ih =>
    obtain ⟨k₀, v⟩ := q
    by_cases h : k₀ = k
    · subst h
      simp [bump, keys]
      tauto
    · simp [bump, h, keys] at *
      tauto

theorem aggregate_values_pos_aux (commits : List Commit) (m : List (String × Nat))
    (hm : ∀ p ∈ m, 1 ≤ p.2) :
    ∀ p ∈ commits.foldl aggStep m, 1 ≤ p.2 := by
  induction commits generalizing m with
  | nil => simpa using hm
  | cons c rest ih =>
    rw [List.foldl_cons]
    by_cases h : c.date.take 10 = ""
    · rw [show aggStep m c = m from by simp [aggStep, h]]
      exact ih m hm
    · rw [show aggStep m c = bump m (c.date.take 10) from by simp [aggStep, h]]
      exact ih _ (mem_bump_snd_pos m _ hm)

theorem mem_keys_aggregate_aux (commits : List Commit) (m : List (String × Nat))
    (k : String) :
    k ∈ keys (commits.foldl aggStep m) ↔
    k ∈ keys m ∨ (k ≠ "" ∧ ∃ c ∈ commits, c.date.take 10 = k) := by
  induction commits generalizing m with
  | nil => simp
  | cons c rest ih =>
    rw [List.foldl_cons]
    by_cases h : c.date.take 10 = ""
    · rw [show aggStep m c = m from by simp [aggStep, h], ih]
      constructor
      · rintro (hk | ⟨hne, c', hc', hk⟩)
        · exact Or.inl hk
        · exact Or.inr ⟨hne, c', List.mem_cons_of_mem _ hc', hk⟩
      · rintro (hk | ⟨hne, c', hc', hk⟩)
        · exact Or.inl hk
        · rcases List.mem_cons.mp hc' with rfl | hc'
          · exact absurd (hk ▸ h) hne
          · exact Or.inr ⟨hne, c', hc', hk⟩
    · rw [show aggStep m c = bump m (c.date.take 10) from by simp [aggStep, h], ih]
      simp only [mem_keys_bump]
      constructor
      · rintro ((hk | hk) | ⟨hne, c', hc', hk⟩)
        · exact Or.inl hk
        · refine Or.inr ⟨?_, c, List.mem_cons_self _ _, hk.symm⟩
          rw [hk]; exact h
        · exact Or.inr ⟨hne, c', List.mem_cons_of_mem _ hc', hk⟩
      · rintro (hk | ⟨hne, c', hc', hk⟩)
        · exact Or.inl (Or.inl hk)
        · rcases List.mem_cons.mp hc' with hc0 | hc'
          · exact Or.inl (Or.inr (hc0 ▸ hk).symm)
          · exact Or.inr ⟨hne, c', hc', hk⟩

/-- C1 counterexample: a record whose date string is empty is dropped by
`aggregate_by_date`, so for the one-element input list holding it the sum of
the produced values is 0 while the total commit count (the list's length,
which `main` passes as `total_commits`) is 1. -/
theorem aggregate_sum_ne_total_at_empty_date :
    sumValues (aggregate_by_date [{ email := "", date := "" }]) = 0 ∧
    [({ email := "", date := "" } : Commit)].length = 1 := by
  constructor
  · rfl
  · rfl

/-- C1 (amended): the sum of the values produced by `aggregate_by_date`
equals the number of input records whose date's first ten characters are
nonempty; in particular it equals the length of the input list (the
`totalCommits` figure `main` reports) whenever every record has a nonempty
date string. -/
theorem aggregate_sum_eq_valid_count (commits : List Commit) :
    sumValues (aggregate_by_date commits) =
      (commits.filter (fun c => c.date.take 10 ≠ "")).length ∧
    ((∀ c ∈ commits, c.date.take 10 ≠ "") →
      sumValues (aggregate_by_date commits) = commits.length) := by
  have h := sumValues_foldl commits []
  have h0 : sumValues (aggregate_by_date commits) =
      (commits.filter (fun c => c.date.take 10 ≠ "")).length := by
    simpa [aggregate_by_date, sumValues] using h
  refine ⟨h0, ?_⟩
  intro hall
  have hfilter : commits.filter (fun c => c.date.take 10 ≠ "") = commits := by
    apply List.filter_eq_self.mpr
    intro c hc
    simpa using hall c hc
  rw [h0, hfilter]

/-- Witness for `aggregate_sum_eq_valid_count` at a concrete two-record
list with nonempty dates. -/
theorem aggregate_sum_eq_valid_count_witness :
    sumValues (aggregate_by_date
      [{ email := "a@x.com", date := "2024-01-01T10:00:00Z" },
       { email := "b@x.com", date := "2024-01-01T11:00:00Z" }]) = 2 := by
  exact (aggregate_sum_eq_valid_count _).2 (by decide)

/-- C10 counterexample: the claim's key-membership equivalence fails for the
empty string: a record with empty date has `""` as the first ten characters
of its date, yet `""` is never a key of the mapping `aggregate_by_date`
returns. -/
theorem aggregate_keys_counterexample :
    (∃ c ∈ [({ email := "", date := "" } : Commit)], c.date.take 10 = "") ∧
    "" ∉ keys (aggregate_by_date [{ email := "", date := "" }]) := by
  constructor
  · exact ⟨{ email := "", date := "" }, by simp, rfl⟩
  · have : aggregate_by_date [{ email := "", date := "" }] = [] := rfl
    rw [this]
    simp [keys]

/-- C10 (amended): every value stored by `aggregate_by_date` is at least 1,
and a string is a key of the produced mapping exactly when it is nonempty
and is the first ten characters of at least one input record's date; a
zero-count day is therefore represented only by an absent key, never by a
stored 0. -/
theorem aggregate_values_pos_and_keys (commits : List Commit) :
    (∀ p ∈ aggregate_by_date commits, 1 ≤ p.2) ∧
    (∀ k : String,
      k ∈ keys (aggregate_by_date commits) ↔
        k ≠ "" ∧ ∃ c ∈ commits, c.date.take 10 = k) := by
  constructor
  · exact aggregate_values_pos_aux commits [] (by simp)
  · intro k
    have h := mem_keys_aggregate_aux commits [] k
    simpa [aggregate_by_date, keys] using h

/-- Witness for `aggregate_values_pos_and_keys`: at a concrete one-record
list, the record's date prefix is a key of the mapping. -/
theorem aggregate_values_pos_and_keys_witness :
    "2024-01-01" ∈ keys (aggregate_by_date
      [{ email := "a@x.com", date := "2024-01-01T10:00:00Z" }]) :=
  ((aggregate_values_pos_and_keys _).2 "2024-01-01").mpr
    ⟨by decide, { email := "a@x.com", date := "2024-01-01T10:00:00Z" },
      by simp, by decide⟩

/-! ### calculate_streak (lines 257-290)

Calendar days are modelled as integers (days since 1970-01-01).
`calculate_streak` reads the counts dict only through
`commit_counts.get(date.strftime("%Y-%m-%d"), 0)`; since `strftime` is
injective on days, that composite lookup is modelled as a total function
`counts : Int → Nat`. The `while True` loop carries explicit fuel and
returns `none` when the fuel runs out before the loop breaks. -/

/-- One iteration of the current-streak `while True` loop: a positive day
extends the streak and steps back one day; a zero day steps back once
without breaking when it is `today`, and otherwise breaks. -/
def currentStreakAux (counts : Int → Nat) (today : Int) :
    Nat → Int → Nat → Option Nat
  | 0, _, _ => none
  | fuel + 1, d, streak =>
    if 0 < counts d then currentStreakAux counts today fuel (d - 1) (streak + 1)
    else if d = today then currentStreakAux counts today fuel (d - 1) streak
    else some streak

/-- Embedding of the current-streak half of `calculate_streak`: the walk
begins at `today` with streak 0. -/
def calculate_current_streak (counts : Int → Nat) (today : Int) (fuel : Nat) :
    Option Nat :=
  currentStreakAux counts today fuel today 0

/-- One iteration of the max-streak `for` loop: state is
`(max_streak, temp_streak)`. -/
def maxStreakStep (counts : Int → Nat) (start : Int) (st : Nat × Nat) (i : Nat) :
    Nat × Nat :=
  if 0 < counts (start + i) then (max st.1 (st.2 + 1), st.2 + 1) else (st.1, 0)

/-- Embedding of the max-streak half of `calculate_streak`: scan
`start_date + i` for `i in range(366)` with `start_date = today - 365`. -/
def calculate_max_streak (counts : Int → Nat) (today : Int) : Nat :=
  ((List.range 366).foldl (maxStreakStep counts (today - 365)) (0, 0)).1

/-- Embedding of `calculate_streak` (both halves). -/
def calculate_streak (counts : Int → Nat) (today : Int) (fuel : Nat) :
    Option Nat × Nat :=
  (calculate_current_streak counts today fuel, calculate_max_streak counts today)

/-- Day the current-streak walk effectively starts from: `today`, or
`today - 1` when `today` has no commits. -/
def streakStart (counts : Int → Nat) (today : Int) : Int :=
  if 0 < counts today then today else today - 1

/-- Run of `k` consecutive positive-count days ending at day `d`. -/
def posRun (counts : Int → Nat) (d : Int) (k : Nat) : Prop :=
  ∀ i < k, 0 < counts (d - i)

instance posRunDecidable (counts : Int → Nat) (d : Int) (k : Nat) :
    Decidable (posRun counts d k) :=
  decidable_of_iff (∀ i, i < k → 0 < counts (d - i)) Iff.rfl

theorem currentStreakAux_run (counts : Int → Nat) (today : Int) :
    ∀ (k f : Nat) (d : Int) (s : Nat),
      posRun counts d k → counts (d - k) = 0 → d < today → k + 1 ≤ f →
      currentStreakAux counts today f d s = some (s + k) := by
  intro k
  induction k with
  | zero =>
    intro f d s _ hstop hd hf
    match f, hf with
    | f' + 1, _ =>
      have h0 : counts d = 0 := by simpa using hstop
      have hne : d ≠ today := by omega
      simp [currentStreakAux, h0, hne]
  | succ k ih =>
    intro f d s hrun hstop hd hf
    match f, hf with
    | f' + 1, hf =>
      have hpos : 0 < counts d := by simpa using hrun 0 (Nat.succ_pos k)
      have hrun' : posRun counts (d - 1) k := by
        intro i hi
        have := hrun (i + 1) (by omega)
        have harith : d - (↑(i + 1) : Int) = d - 1 - i := by push_cast; ring
        rwa [harith] at this
      have hstop' : counts (d - 1 - k) = 0 := by
        have harith : d - (↑(k + 1) : Int) = d - 1 - k := by push_cast; ring
        rwa [harith] at hstop
      rw [show currentStreakAux counts today (f' + 1) d s
            = currentStreakAux counts today f' (d - 1) (s + 1) from by
          simp [currentStreakAux, hpos]]
      rw [ih f' (d - 1) (s + 1) hrun' hstop' (by omega) (by omega)]
      congr 1
      omega

/-- C4: the current-streak walk starts at `today`, or at `today - 1` when
`today` has zero commits (the zero today is skipped once, not counted as a
break); it counts backward while each day's count is positive and stops at
the first zero-count day, returning the run length `k`. -/
theorem calculate_current_streak_spec (counts : Int → Nat) (today : Int)
    (k fuel : Nat)
    (hrun : posRun counts (streakStart counts today) k)
    (hstop : counts (streakStart counts today - k) = 0)
    (hfuel : k + 2 ≤ fuel) :
    calculate_current_streak counts today fuel = some k := by
  by_cases hpos : 0 < counts today
  · have hstart : streakStart counts today = today := by simp [streakStart, hpos]
    rw [hstart] at hrun hstop
    match k with
    | 0 => simp at hstop; omega
    | k' + 1 =>
      match fuel, hfuel with
      | f' + 1, hf =>
        unfold calculate_current_streak
        rw [show currentStreakAux counts today (f' + 1) today 0
              = currentStreakAux counts today f' (today - 1) 1 from by
            simp [currentStreakAux, hpos]]
        have hrun' : posRun counts (today - 1) k' := by
          intro i hi
          have := hrun (i + 1) (by omega)
          have harith : today - (↑(i + 1) : Int) = today - 1 - i := by
            push_cast; ring
          rwa [harith] at this
        have hstop' : counts (today - 1 - k') = 0 := by
          have harith : today - (↑(k' + 1) : Int) = today - 1 - k' := by
            push_cast; ring
          rwa [harith] at hstop
        rw [currentStreakAux_run counts today k' f' (today - 1) 1 hrun' hstop'
          (by omega) (by omega)]
        congr 1
        omega
  · have hstart : streakStart counts today = today - 1 := by
      simp [streakStart, hpos]
    rw [hstart] at hrun hstop
    have hzero : counts today = 0 := by omega
    match fuel, hfuel with
    | f' + 1, hf =>
      unfold calculate_current_streak
      rw [show currentStreakAux counts today (f' + 1) today 0
            = currentStreakAux counts today f' (today - 1) 0 from by
          simp [currentStreakAux, hzero]]
      have := currentStreakAux_run counts today k f' (today - 1) 0 hrun
        hstop (by omega) (by omega)
      simpa using this

/-- Witness for `calculate_current_streak_spec`: the claim's own instance —
`today` has count 0, `today - 1` and `today - 2` have count 1 — yields a
current streak of 2. -/
theorem calculate_current_streak_spec_witness :
    calculate_current_streak
      (fun d => if d = 1 ∨ d = 2 then 1 else 0) 3 10 = some 2 :=
  calculate_current_streak_spec (fun d => if d = 1 ∨ d = 2 then 1 else 0) 3 2 10
    (by decide) (by decide) (by decide)

theorem posRun_succ_iff (counts : Int → Nat) (d : Int) (k : Nat) :
    posRun counts d (k + 1) ↔ 0 < counts d ∧ posRun counts (d - 1) k := by
  constructor
  · intro h
    refine ⟨by simpa using h 0 (Nat.succ_pos k), fun i hi => ?_⟩
    have h2 := h (i + 1) (by omega)
    have ha : d - (↑(i + 1) : Int) = d - 1 - ↑i := by push_cast; ring
    rwa [ha] at h2
  · rintro ⟨h0, h1⟩ i hi
    match i with
    | 0 => simpa using h0
    | j + 1 =>
      have hj := h1 j (by omega)
      have ha : d - 1 - (↑j : Int) = d - ↑(j + 1) := by push_cast; ring
      rwa [ha] at hj

/-- State of the max-streak loop after the first `n` of the 366 iterations:
`(max_streak, temp_streak)`. -/
def maxAfter (counts : Int → Nat) (start : Int) (n : Nat) : Nat × Nat :=
  (List.range n).foldl (maxStreakStep counts start) (0, 0)

theorem maxAfter_succ (counts : Int → Nat) (start : Int) (n : Nat) :
    maxAfter counts start (n + 1) =
      maxStreakStep counts start (maxAfter counts start n) n := by
  unfold maxAfter
  rw [List.range_succ, List.foldl_append, List.foldl_cons, List.foldl_nil]

/-- Run of `k` consecutive positive-count days lying entirely inside the
first `n` days of the window `[start, start + n)`. -/
def prefixRun (counts : Int → Nat) (start : Int) (n k : Nat) : Prop :=
  ∃ d : Int, d + 1 ≤ start + n ∧ start + k ≤ d + 1 ∧ posRun counts d k

theorem prefixRun_mono (counts : Int → Nat) (start : Int) (n k : Nat)
    (h : prefixRun counts start n k) : prefixRun counts start (n + 1) k := by
  obtain ⟨d, h1, h2, h3⟩ := h
  exact ⟨d, by push_cast at *; omega, h2, h3⟩

theorem maxAfter_inv (counts : Int → Nat) (start : Int) :
    ∀ n : Nat,
      (maxAfter counts start n).2 ≤ n ∧
      posRun counts (start + n - 1) (maxAfter counts start n).2 ∧
      (∀ k, k ≤ n → posRun counts (start + n - 1) k →
        k ≤ (maxAfter counts start n).2) ∧
      prefixRun counts start n (maxAfter counts start n).1 ∧
      (∀ m k, m < n → k ≤ m + 1 → posRun counts (start + m) k →
        k ≤ (maxAfter counts start n).1) := by
  intro n
  induction n with
  | zero =>
    have h0 : maxAfter counts start 0 = (0, 0) := rfl
    rw [h0]
    refine ⟨Nat.le_refl 0, ?_, ?_, ?_, ?_⟩
    · intro i hi
      simp at hi
    · intro k hk _
      simpa using hk
    · exact ⟨start - 1, by push_cast; omega, by push_cast; omega,
        fun i hi => by simp at hi⟩
    · intro m k hm
      simp at hm
  | succ n ih =>
    obtain ⟨hT, hTrun, hTmax, hMach, hMmax⟩ := ih
    have hcast : (start + ↑(n + 1) - 1 : Int) = start + ↑n := by push_cast; ring
    have hcast2 : (start + ↑n - 1 : Int) = (start + ↑n) - 1 := by ring
    by_cases hD : 0 < counts (start + ↑n)
    · have hstep : maxAfter counts start (n + 1) =
          (max (maxAfter counts start n).1 ((maxAfter counts start n).2 + 1),
            (maxAfter counts start n).2 + 1) := by
        rw [maxAfter_succ]
        simp [maxStreakStep, hD]
      rw [hstep]
      have hTrun' : posRun counts (start + ↑n) ((maxAfter counts start n).2 + 1) := by
        rw [posRun_succ_iff]
        exact ⟨hD, by rwa [← hcast2]⟩
      refine ⟨by omega, by rwa [hcast], ?_, ?_, ?_⟩
      · intro k hk hrun
        match k with
        | 0 => omega
        | j + 1 =>
          rw [hcast, posRun_succ_iff] at hrun
          have := hTmax j (by omega) (by rw [hcast2]; exact hrun.2)
          omega
      · rcases le_total ((maxAfter counts start n).2 + 1) (maxAfter counts start n).1
          with hle | hle
        · rw [max_eq_left hle]
          exact prefixRun_mono _ _ _ _ hMach
        · rw [max_eq_right hle]
          refine ⟨start + ↑n, by push_cast; omega, by push_cast; omega, hTrun'⟩
      · intro m k hm hk hrun
        rcases Nat.lt_succ_iff_lt_or_eq.mp hm with hm' | heq
        · exact le_trans (hMmax m k hm' hk hrun) (le_max_left _ _)
        · rw [heq] at hrun hk
          match k with
          | 0 => omega
          | j + 1 =>
            rw [posRun_succ_iff] at hrun
            have := hTmax j (by omega) (by rw [hcast2]; exact hrun.2)
            have h2 : j + 1 ≤ (maxAfter counts start n).2 + 1 := by omega
            exact le_trans h2 (le_max_right _ _)
    · have hstep : maxAfter counts start (n + 1) =
          ((maxAfter counts start n).1, 0) := by
        rw [maxAfter_succ]
        simp [maxStreakStep, hD]
      rw [hstep]
      refine ⟨by omega, ?_, ?_, ?_, ?_⟩
      · intro i hi
        omega
      · intro k hk hrun
        match k with
        | 0 => omega
        | j + 1 =>
          rw [hcast, posRun_succ_iff] at hrun
          exact absurd hrun.1 hD
      · exact prefixRun_mono _ _ _ _ hMach
      · intro m k hm hk hrun
        rcases Nat.lt_succ_iff_lt_or_eq.mp hm with hm' | heq
        · exact hMmax m k hm' hk hrun
        · rw [heq] at hrun
          match k with
          | 0 => omega
          | j + 1 =>
            rw [posRun_succ_iff] at hrun
            exact absurd hrun.1 hD

/-- Run of `k` consecutive positive-count days inside the scanned window
`[today - 365, today]`. -/
def windowRun (counts : Int → Nat) (today : Int) (k : Nat) : Prop :=
  prefixRun counts (today - 365) 366 k

/-- C5: `calculate_max_streak` is the length of the longest run of
consecutive positive-count days inside `[today - 365, today]` (a zero-count
day resets the running length): the returned value is achieved by some run
in the window and bounds every run in the window; and on the claim's
concrete counts (days 19723, 19724 with one commit, 19725 with none,
19726 = today with two — the dates 2024-01-01 … 2024-01-04 as days since
1970-01-01) the current streak is 1 and the max streak is 2. -/
theorem calculate_max_streak_spec :
    (∀ (counts : Int → Nat) (today : Int),
      windowRun counts today (calculate_max_streak counts today) ∧
      (∀ k, windowRun counts today k → k ≤ calculate_max_streak counts today)) ∧
    calculate_streak
      (fun d => if d = 19723 ∨ d = 19724 then 1 else if d = 19726 then 2 else 0)
      19726 10 = (some 1, 2) := by
  constructor
  · intro counts today
    obtain ⟨hT, hTrun, hTmax, hMach, hMmax⟩ := maxAfter_inv counts (today - 365) 366
    have hM : calculate_max_streak counts today =
        (maxAfter counts (today - 365) 366).1 := rfl
    constructor
    · rw [hM]
      exact hMach
    · intro k hk
      obtain ⟨d, h1, h2, h3⟩ := hk
      match k with
      | 0 => omega
      | j + 1 =>
        have hds : today - 365 ≤ d := by push_cast at h2; omega
        have hm : ((d - (today - 365)).toNat : Int) = d - (today - 365) := by
          omega
        rw [hM]
        refine hMmax (d - (today - 365)).toNat (j + 1) (by push_cast at h1 ⊢; omega)
          (by push_cast at h2 ⊢; omega) ?_
        have : today - 365 + ((d - (today - 365)).toNat : Int) = d := by omega
        rwa [this]
  · rfl

/-- Witness for `calculate_max_streak_spec`: the run of length 2 at days
19723–19724 bounds the computed max streak from below. -/
theorem calculate_max_streak_spec_witness :
    2 ≤ calculate_max_streak
      (fun d => if d = 19723 ∨ d = 19724 then 1 else if d = 19726 then 2 else 0)
      19726 :=
  ((calculate_max_streak_spec.1 _ 19726).2) 2
    ⟨19724, by decide, by decide, by decide⟩

/-! ### generate_svg grid layout (lines 319-330, 355-360) -/

/-- Python `date.weekday()` (Monday = 0 … Sunday = 6) for a day counted
since 1970-01-01, which was a Thursday. -/
def weekday (d : Int) : Int :=
  (d + 3) % 7

/-- Embedding of the grid anchor of `generate_svg`:
`start_date = today - 364`, shifted earlier by `(weekday + 1) % 7` days
when its weekday is not Sunday. -/
def gridStart (today : Int) : Int :=
  if weekday (today - 364) ≠ 6 then
    (today - 364) - (weekday (today - 364) + 1) % 7
  else today - 364

/-- Dates of the 53 × 7 logical grid cells in drawing order: the cell at
`(week, day)` has date `gridStart + (week * 7 + day)` because
`generate_svg` advances `current_date` by one day on every iteration,
drawn or skipped. -/
def gridDates (today : Int) : List Int :=
  (List.range (53 * 7)).map (fun (i : Nat) => gridStart today + (i : Int))

/-- Dates of the cells actually drawn: the walk skips any date after
`today`. -/
def drawnDates (today : Int) : List Int :=
  (gridDates today).filter (fun d => decide (d ≤ today))

/-- C6: the grid has exactly 53 × 7 = 371 logical cells; the start date is
`today - 364` snapped back to the most recent Sunday (unchanged when
already a Sunday, otherwise moved earlier by less than a week), so its
weekday is Sunday; no drawn cell's date exceeds `today`; and the first
drawn cell — the minimum of the drawn dates — is the start date itself. -/
theorem grid_layout_spec (today : Int) :
    (gridDates today).length = 371 ∧
    weekday (gridStart today) = 6 ∧
    gridStart today ≤ today - 364 ∧
    today - 364 - gridStart today < 7 ∧
    (weekday (today - 364) = 6 → gridStart today = today - 364) ∧
    (∀ d ∈ drawnDates today, d ≤ today) ∧
    gridStart today ∈ drawnDates today ∧
    (∀ d ∈ drawnDates today, gridStart today ≤ d) := by
  have hstart : gridStart today ≤ today - 364 ∧
      today - 364 - gridStart today < 7 ∧ weekday (gridStart today) = 6 := by
    unfold gridStart weekday
    split
    · refine ⟨by omega, by omega, by omega⟩
    · refine ⟨by omega, by omega, by omega⟩
  refine ⟨?_, hstart.2.2, hstart.1, hstart.2.1, ?_, ?_, ?_, ?_⟩
  · rw [gridDates, List.length_map, List.length_range]
  · intro h6
    unfold gridStart
    rw [if_neg (by simp [h6])]
  · intro d hd
    rw [drawnDates, List.mem_filter] at hd
    simpa using hd.2
  · rw [drawnDates, List.mem_filter]
    constructor
    · rw [gridDates, List.mem_map]
      refine ⟨0, ?_, by simp⟩
      rw [List.mem_range]
      norm_num
    · simp only [decide_eq_true_eq]
      omega
  · intro d hd
    rw [drawnDates, List.mem_filter, gridDates, List.mem_map] at hd
    obtain ⟨⟨i, hi, rfl⟩, _⟩ := hd
    exact le_add_of_nonneg_right (Int.natCast_nonneg i)

/-- Witness for `grid_layout_spec` at the concrete day 19726 (2024-01-04):
the snapped start date falls on a Sunday. -/
theorem grid_layout_spec_witness : weekday (gridStart 19726) = 6 :=
  (grid_layout_spec 19726).2.1

/-! ### get_color_level theorems (lines 293-307) -/

/-- C7: `get_color_level` returns 0 when either argument is 0, and for
positive arguments returns 1, 2, 3 or 4 according as the exact ratio
`count / maxCount` is ≤ 1/4, in (1/4, 1/2], in (1/2, 3/4], or above 3/4. -/
theorem get_color_level_spec (count maxCount : Nat) :
    ((count = 0 ∨ maxCount = 0) → get_color_level count maxCount = 0) ∧
    (0 < count → 0 < maxCount →
      (((count : ℚ) / maxCount ≤ 1 / 4 → get_color_level count maxCount = 1) ∧
       (1 / 4 < (count : ℚ) / maxCount → (count : ℚ) / maxCount ≤ 1 / 2 →
         get_color_level count maxCount = 2) ∧
       (1 / 2 < (count : ℚ) / maxCount → (count : ℚ) / maxCount ≤ 3 / 4 →
         get_color_level count maxCount = 3) ∧
       (3 / 4 < (count : ℚ) / maxCount → get_color_level count maxCount = 4))) := by
  constructor
  · rintro (rfl | rfl) <;> simp [get_color_level]
  · intro hc hm
    have hc' : count ≠ 0 := by omega
    have hm' : maxCount ≠ 0 := by omega
    simp only [get_color_level, if_neg hc', if_neg hm']
    refine ⟨?_, ?_, ?_, ?_⟩
    · intro h1
      rw [if_pos h1]
    · intro h1 h2
      rw [if_neg (not_le.mpr h1), if_pos h2]
    · intro h1 h2
      rw [if_neg (not_le.mpr (by linarith)), if_neg (not_le.mpr h1), if_pos h2]
    · intro h1
      rw [if_neg (not_le.mpr (by linarith)), if_neg (not_le.mpr (by linarith)),
        if_neg (not_le.mpr h1)]

/-- Witness for `get_color_level_spec`: a count of 1 out of a maximum of 4
has ratio exactly 1/4 and lands in bucket 1. -/
theorem get_color_level_spec_witness : get_color_level 1 4 = 1 :=
  ((get_color_level_spec 1 4).2 (by norm_num) (by norm_num)).1 (by norm_num)

/-- C8 counterexample: `get_color_level 1 0 = 0` although the count 1 is
nonzero, so "the level is 0 if and only if the count is 0" fails when
`maxCount = 0`. -/
theorem get_color_level_zero_iff_counterexample :
    ¬ (get_color_level 1 0 = 0 ↔ (1 : Nat) = 0) := by
  decide

/-- C8 (amended): the level is 0 exactly when the count is 0 or the maximum
is 0 (so the zero-level/zero-count equivalence holds whenever the maximum
is positive), and for fixed `maxCount` the level is monotonically
non-decreasing in the count. -/
theorem get_color_level_zero_iff_and_mono :
    (∀ c m : Nat, get_color_level c m = 0 ↔ (c = 0 ∨ m = 0)) ∧
    (∀ (m c c' : Nat), c ≤ c' → get_color_level c m ≤ get_color_level c' m) := by
  constructor
  · intro c m
    constructor
    · intro h0
      by_contra hcm
      push_neg at hcm
      obtain ⟨hc, hm⟩ := hcm
      simp only [get_color_level, if_neg hc, if_neg hm] at h0
      split_ifs at h0 <;> omega
    · rintro (rfl | rfl) <;> simp [get_color_level]
  · intro m c c' hcc
    by_cases hm : m = 0
    · simp [get_color_level, hm]
    · by_cases hc : c = 0
      · simp [get_color_level, hc]
      · have hc' : c' ≠ 0 := by omega
        have hmq : (0 : ℚ) < m := by
          have : m ≠ 0 := hm
          positivity
        have hr : (c : ℚ) / m ≤ (c' : ℚ) / m := by
          apply (div_le_div_right hmq).mpr
          exact_mod_cast hcc
        simp only [get_color_level, if_neg hc, if_neg hm, if_neg hc']
        split_ifs <;> first
          | omega
          | linarith

/-- Witness for `get_color_level_zero_iff_and_mono`: concrete instances of
the zero equivalence and of monotonicity. -/
theorem get_color_level_zero_iff_and_mono_witness :
    get_color_level 1 4 ≤ get_color_level 3 4 :=
  get_color_level_zero_iff_and_mono.2 4 1 3 (by norm_num)

/-! ### Per-repo email filter (lines 117-119 and 224-226) -/

/-- Embedding of the Azure filter step
`if emails: commits = [c for c in commits if c..email.lower() in emails]`. -/
def azureEmailFilter (emails : List String) (commits : List Commit) :
    List Commit :=
  if emails.isEmpty then commits
  else commits.filter (fun c => emails.contains (strLower c.email))

/-- Embedding of the GitHub filter step, guarded by
`if emails and commits:`. -/
def githubEmailFilter (emails : List String) (commits : List Commit) :
    List Commit :=
  if emails.isEmpty ∨ commits.isEmpty then commits
  else commits.filter (fun c => emails.contains (strLower c.email))

/-- C9: with a nonempty allow-list both fetchers keep exactly the records
whose lowercased email is a member of the (already lowercased) parsed
allow-list, and with an empty allow-list nothing is discarded; every parsed
entry is the lowercased strip of a comma-separated field; and on the
claim's concrete instance — allow-list "a@x.com", record emails "A@X.COM"
and "b@x.com" — only the first record survives. -/
theorem email_filter_spec :
    (∀ (emails : List String) (commits : List Commit) (c : Commit),
      emails ≠ [] →
      (c ∈ azureEmailFilter emails commits ↔
        c ∈ commits ∧ strLower c.email ∈ emails)) ∧
    (∀ commits, azureEmailFilter [] commits = commits) ∧
    (∀ (emails : List String) (commits : List Commit) (c : Commit),
      emails ≠ [] →
      (c ∈ githubEmailFilter emails commits ↔
        c ∈ commits ∧ strLower c.email ∈ emails)) ∧
    (∀ commits, githubEmailFilter [] commits = commits) ∧
    (∀ (s : String) (e : String), e ∈ parseAuthorEmails s →
      ∃ raw ∈ splitCommas s, strStrip raw ≠ "" ∧ e = strLower (strStrip raw)) ∧
    azureEmailFilter (parseAuthorEmails "a@x.com")
      [{ email := "A@X.COM", date := "2024-01-01T00:00:00Z" },
       { email := "b@x.com", date := "2024-01-01T00:00:00Z" }] =
      [{ email := "A@X.COM", date := "2024-01-01T00:00:00Z" }] := by
  refine ⟨?_, ?_, ?_, ?_, ?_, ?_⟩
  · intro emails commits c he
    rw [azureEmailFilter, if_neg (by simpa using he)]
    simp [List.mem_filter]
  · intro commits
    simp [azureEmailFilter]
  · intro emails commits c he
    by_cases hc : commits.isEmpty
    · rw [githubEmailFilter, if_pos (Or.inr hc)]
      rw [List.isEmpty_iff] at hc
      subst hc
      simp
    · rw [githubEmailFilter, if_neg (by simp at hc ⊢; tauto)]
      simp [List.mem_filter]
  · intro commits
    simp [githubEmailFilter]
  · intro s e he
    rw [parseAuthorEmails] at he
    obtain ⟨raw, hraw, hcond⟩ := List.mem_filterMap.mp he
    by_cases h0 : strStrip raw = ""
    · rw [if_pos h0] at hcond
      exact absurd hcond (by simp)
    · rw [if_neg h0] at hcond
      exact ⟨raw, hraw, h0, by simpa using hcond.symm⟩
  · decide

/-- Witness for `email_filter_spec`: a record whose lowercased email is in
the nonempty allow-list is kept by the Azure filter. -/
theorem email_filter_spec_witness :
    { email := "A@X.COM", date := "d" : Commit } ∈
      azureEmailFilter ["a@x.com"]
        [{ email := "A@X.COM", date := "d" }] :=
  ((email_filter_spec.1 ["a@x.com"]
      [{ email := "A@X.COM", date := "d" }]
      { email := "A@X.COM", date := "d" } (by simp)).mpr
    ⟨by simp, by decide⟩)

/-! ### Fetch orchestration (fetch_azure_commits lines 95-128,
fetch_github_commits lines 200-242, main lines 418-450)

A provider backend is modelled by the outcomes of its HTTP calls: each
listing or commit call either raises (`Except.error`, any unexpected
transport or non-2xx/404 response propagated by `raise_for_status`) or
returns data. The single `try/except` around each provider's whole loop is
embedded by threading a "threw" flag: once a call errors, the loop stops
and the records accumulated so far are returned, exactly as the `except`
handler returns the partially filled `all_commits`. -/

/-- Outcome of fetching one repository's commits. -/
structure RepoSrc where
  commits : Except String (List Commit)
deriving Repr

/-- Outcome of listing one Azure project's repositories. -/
structure ProjectSrc where
  repos : Except String (List RepoSrc)

/-- Outcome of the Azure projects listing. -/
structure AzureSrc where
  projects : Except String (List ProjectSrc)

/-- Outcome of the GitHub repository listing. -/
structure GithubSrc where
  repos : Except String (List RepoSrc)

/-- Inner Azure loop over one project's repositories: fetch, filter, and
extend the accumulator; an error aborts with the flag set. -/
def runRepos (emails : List String) :
    List RepoSrc → List Commit → List Commit × Bool
  | [], acc => (acc, false)
  | r :: rest, acc =>
    match r.commits with
    | .error _ => (acc, true)
    | .ok cs => runRepos emails rest (acc ++ azureEmailFilter emails cs)

/-- Outer Azure loop over the projects: list each project's repositories
(an error aborts with the flag set) and run the inner loop. -/
def runProjects (emails : List String) :
    List ProjectSrc → List Commit → List Commit × Bool
  | [], acc => (acc, false)
  | p :: ps, acc =>
    match p.repos with
    | .error _ => (acc, true)
    | .ok rs =>
      match runRepos emails rs acc with
      | (acc', true) => (acc', true)
      | (acc', false) => runProjects emails ps acc'

/-- Embedding of `fetch_azure_commits`: skipped without credentials;
otherwise the whole project walk sits in one `try`, whose handler returns
whatever was accumulated. -/
def fetch_azure_commits (hasCreds : Bool) (emails : List String)
    (src : AzureSrc) : List Commit :=
  if hasCreds = false then []
  else
    match src.projects with
    | .error _ => []
    | .ok ps => (runProjects emails ps []).1

/-- GitHub loop over the listed repositories, mirroring `runRepos`. -/
def runGhRepos (emails : List String) :
    List RepoSrc → List Commit → List Commit × Bool
  | [], acc => (acc, false)
  | r :: rest, acc =>
    match r.commits with
    | .error _ => (acc, true)
    | .ok cs => runGhRepos emails rest (acc ++ githubEmailFilter emails cs)

/-- Embedding of `fetch_github_commits`: skipped without a token;
otherwise the repository walk sits in one `try` whose handler returns the
accumulator. -/
def fetch_github_commits (hasToken : Bool) (emails : List String)
    (src : GithubSrc) : List Commit :=
  if hasToken = false then []
  else
    match src.repos with
    | .error _ => []
    | .ok rs => (runGhRepos emails rs []).1

/-- Combination performed by `main`: `all_commits = azure + github`. -/
def allCommits (azure github : List Commit) : List Commit :=
  azure ++ github

/-- Sample commit record used in concrete fetch scenarios. -/
def sampleCommit : Commit :=
  { email := "a@x.com", date := "2024-01-01T00:00:00Z" }

/-- A repository whose commits call succeeds with one record. -/
def goodRepoSrc : RepoSrc :=
  { commits := Except.ok [sampleCommit] }

/-- A repository whose commits call raises an unexpected HTTP error. -/
def badRepoSrc : RepoSrc :=
  { commits := Except.error "HTTP 500" }

/-- An Azure backend with one project holding one good repository followed
by one erroring repository. -/
def partialAzureSrc : AzureSrc :=
  { projects := Except.ok [{ repos := Except.ok [goodRepoSrc, badRepoSrc] }] }

/-- C2 counterexample: a provider that successfully fetches one repository
and then hits an unexpected error yields that repository's record — one
record, not zero — so "yields zero records for the run" fails. -/
theorem fetch_error_zero_counterexample :
    (runRepos [] [goodRepoSrc, badRepoSrc] []).2 = true ∧
    fetch_azure_commits true [] partialAzureSrc = [sampleCommit] ∧
    fetch_azure_commits true [] partialAzureSrc ≠ [] := by
  refine ⟨rfl, rfl, ?_⟩
  decide

/-- C2 (amended): an unexpected error is caught at the provider's fetch
boundary and never escapes: an error in the initial listing call yields
zero records for that provider, an error at a later repository yields
exactly the records accumulated from the repositories already processed,
and `main` combines the two providers by concatenation, so the other
provider's records are unaffected in either case. -/
theorem fetch_error_boundary_spec :
    (∀ (emails : List String) (e : String),
      fetch_azure_commits true emails { projects := Except.error e } = []) ∧
    (∀ (emails : List String) (e : String),
      fetch_github_commits true emails { repos := Except.error e } = []) ∧
    (∀ (emails : List String) (good : List RepoSrc) (bad : RepoSrc)
        (rest : List RepoSrc) (acc : List Commit) (e : String),
      (runRepos emails good acc).2 = false →
      bad.commits = Except.error e →
      runRepos emails (good ++ bad :: rest) acc =
        ((runRepos emails good acc).1, true)) ∧
    (∀ (emails : List String) (good : List RepoSrc) (bad : RepoSrc)
        (rest : List RepoSrc) (acc : List Commit) (e : String),
      (runGhRepos emails good acc).2 = false →
      bad.commits = Except.error e →
      runGhRepos emails (good ++ bad :: rest) acc =
        ((runGhRepos emails good acc).1, true)) ∧
    (∀ azure github, allCommits azure github = azure ++ github) := by
  refine ⟨?_, ?_, ?_, ?_, ?_⟩
  · intro emails e
    rfl
  · intro emails e
    rfl
  · intro emails good
    induction good with
    | nil =>
      intro bad rest acc e _ hbad
      simp [runRepos, hbad]
    | cons r good ih =>
      intro bad rest acc e hflag hbad
      match hr : r.commits with
      | .error e' =>
        rw [runRepos] at hflag
        simp [hr] at hflag
      | .ok cs =>
        rw [List.cons_append, runRepos]
        rw [runRepos] at hflag
        simp only [hr] at hflag ⊢
        rw [ih bad rest _ e hflag hbad]
        rw [runRepos]
        simp [hr]
  · intro emails good
    induction good with
    | nil =>
      intro bad rest acc e _ hbad
      simp [runGhRepos, hbad]
    | cons r good ih =>
      intro bad rest acc e hflag hbad
      match hr : r.commits with
      | .error e' =>
        rw [runGhRepos] at hflag
        simp [hr] at hflag
      | .ok cs =>
        rw [List.cons_append, runGhRepos]
        rw [runGhRepos] at hflag
        simp only [hr] at hflag ⊢
        rw [ih bad rest _ e hflag hbad]
        rw [runGhRepos]
        simp [hr]
  · intro azure github
    rfl

/-- Witness for `fetch_error_boundary_spec`: one good repository followed
by an erroring one returns exactly the good repository's record with the
error flag set. -/
theorem fetch_error_boundary_spec_witness :
    runRepos [] [goodRepoSrc, badRepoSrc] [] = ([sampleCommit], true) :=
  fetch_error_boundary_spec.2.2.1 [] [goodRepoSrc] badRepoSrc [] [] "HTTP 500"
    (by decide) rfl

/-! ### Pagination loops (get_azure_commits lines 72-92,
get_github_commits lines 166-197)

Each loop is driven by the endpoint's responses: Azure pages by the
`$skip` offset, GitHub by the page number. A response is "not found"
(HTTP 404 — for GitHub also 409, both breaking the loop) or a page of
commits; the `while True` loops are embedded with explicit fuel, `none`
meaning the loop has not finished within that fuel. -/

/-- Azure `$top` page-size limit. -/
def azurePageLimit : Nat := 10000

/-- GitHub `per_page` page-size limit. -/
def githubPageLimit : Nat := 100

/-- Response of the Azure commits endpoint for a given `$skip` offset. -/
inductive AzResp where
  | notFound
  | ok (commits : List Commit)

/-- Response of the GitHub commits endpoint for a given page number. -/
inductive GhResp where
  | conflict
  | notFound
  | ok (commits : List Commit)

/-- Embedding of the `while True` loop of `get_azure_commits`: break on
404, on an empty page, or on a page shorter than the limit; otherwise
extend, advance `skip` by the page length, and continue. -/
def get_azure_commits_loop (server : Nat → AzResp) :
    Nat → Nat → List Commit → Option (List Commit)
  | 0, _, _ => none
  | fuel + 1, skip, acc =>
    match server skip with
    | .notFound => some acc
    | .ok commits =>
      if commits.isEmpty then some acc
      else if commits.length < azurePageLimit then some (acc ++ commits)
      else get_azure_commits_loop server fuel (skip + commits.length)
        (acc ++ commits)

/-- Embedding of `get_azure_commits` against a response stream. -/
def get_azure_commits (server : Nat → AzResp) (fuel : Nat) :
    Option (List Commit) :=
  get_azure_commits_loop server fuel 0 []

/-- Embedding of the `while True` loop of `get_github_commits`: break on
409 or 404, on an empty page, or on a page shorter than the limit;
otherwise extend, advance the page number by one, and continue. -/
def get_github_commits_loop (server : Nat → GhResp) :
    Nat → Nat → List Commit → Option (List Commit)
  | 0, _, _ => none
  | fuel + 1, page, acc =>
    match server page with
    | .conflict => some acc
    | .notFound => some acc
    | .ok data =>
      if data.isEmpty then some acc
      else if data.length < githubPageLimit then some (acc ++ data)
      else get_github_commits_loop server fuel (page + 1) (acc ++ data)

/-- Embedding of `get_github_commits`, which starts at page 1. -/
def get_github_commits (server : Nat → GhResp) (fuel : Nat) :
    Option (List Commit) :=
  get_github_commits_loop server fuel 1 []

/-- Termination of the Azure pagination loop: some finite fuel suffices. -/
def azureTerminates (server : Nat → AzResp) : Prop :=
  ∃ fuel, (get_azure_commits server fuel).isSome

/-- Termination of the GitHub pagination loop. -/
def githubTerminates (server : Nat → GhResp) : Prop :=
  ∃ fuel, (get_github_commits server fuel).isSome

/-- The `$skip` offset the Azure loop uses on its `n`-th iteration. -/
def azureSkipAt (server : Nat → AzResp) : Nat → Nat
  | 0 => 0
  | n + 1 =>
    azureSkipAt server n +
      (match server (azureSkipAt server n) with
       | .notFound => 0
       | .ok commits => commits.length)

/-- An Azure response on which the loop breaks. -/
def azStop : AzResp → Prop
  | .notFound => True
  | .ok commits => commits.length < azurePageLimit

/-- A GitHub response on which the loop breaks. -/
def ghStop : GhResp → Prop
  | .conflict => True
  | .notFound => True
  | .ok commits => commits.length < githubPageLimit

theorem azure_loop_none_of_no_stop (server : Nat → AzResp)
    (hno : ∀ k, ¬ azStop (server (azureSkipAt server k))) :
    ∀ (fuel n : Nat) (acc : List Commit),
      get_azure_commits_loop server fuel (azureSkipAt server n) acc = none := by
  intro fuel
  induction fuel with
  | zero => intro n acc; rfl
  | succ fuel ih =>
    intro n acc
    have hn := hno n
    match hs : server (azureSkipAt server n) with
    | .notFound => exact absurd (by rw [hs]; trivial) hn
    | .ok commits =>
      rw [hs] at hn
      have hlen : ¬ commits.length < azurePageLimit := hn
      have hne : commits.isEmpty = false := by
        cases commits with
        | nil => simp [azurePageLimit] at hlen
        | cons a l => rfl
      have hadv : azureSkipAt server n + commits.length =
          azureSkipAt server (n + 1) := by
        rw [azureSkipAt, hs]
      rw [get_azure_commits_loop, hs]
      simp only [hne, Bool.false_eq_true, if_false, if_neg hlen, hadv]
      exact ih (n + 1) (acc ++ commits)

theorem azure_loop_some_of_stop (server : Nat → AzResp) :
    ∀ (k n : Nat), azStop (server (azureSkipAt server (n + k))) →
      ∀ acc, (get_azure_commits_loop server (k + 1) (azureSkipAt server n)
        acc).isSome := by
  intro k
  induction k with
  | zero =>
    intro n hstop acc
    match hs : server (azureSkipAt server n) with
    | .notFound => rw [get_azure_commits_loop, hs]; rfl
    | .ok commits =>
      rw [Nat.add_zero, hs] at hstop
      have hlen : commits.length < azurePageLimit := hstop
      rw [get_azure_commits_loop, hs]
      by_cases he : commits.isEmpty
      · simp [he]
      · simp [he, hlen]
  | succ k ih =>
    intro n hstop acc
    match hs : server (azureSkipAt server n) with
    | .notFound => rw [get_azure_commits_loop, hs]; rfl
    | .ok commits =>
      rw [get_azure_commits_loop, hs]
      by_cases he : commits.isEmpty
      · simp [he]
      · by_cases hlen : commits.length < azurePageLimit
        · simp [he, hlen]
        · have hadv : azureSkipAt server n + commits.length =
              azureSkipAt server (n + 1) := by
            rw [azureSkipAt, hs]
          have hstop' : azStop (server (azureSkipAt server ((n + 1) + k))) := by
            rw [show n + 1 + k = n + (k + 1) from by omega]
            exact hstop
          simp only [he, Bool.false_eq_true, if_false, if_neg hlen, hadv]
          exact ih (n + 1) hstop' (acc ++ commits)

theorem github_loop_none_of_no_stop (server : Nat → GhResp)
    (hno : ∀ k, ¬ ghStop (server (1 + k))) :
    ∀ (fuel k : Nat) (acc : List Commit),
      get_github_commits_loop server fuel (1 + k) acc = none := by
  intro fuel
  induction fuel with
  | zero => intro k acc; rfl
  | succ fuel ih =>
    intro k acc
    have hk := hno k
    match hs : server (1 + k) with
    | .conflict => exact absurd (by rw [hs]; trivial) hk
    | .notFound => exact absurd (by rw [hs]; trivial) hk
    | .ok data =>
      rw [hs] at hk
      have hlen : ¬ data.length < githubPageLimit := hk
      have hne : data.isEmpty = false := by
        cases data with
        | nil => simp [githubPageLimit] at hlen
        | cons a l => rfl
      rw [get_github_commits_loop, hs]
      simp only [hne, Bool.false_eq_true, if_false, if_neg hlen]
      rw [show 1 + k + 1 = 1 + (k + 1) from by omega]
      exact ih (k + 1) (acc ++ data)

theorem github_loop_some_of_stop (server : Nat → GhResp) :
    ∀ (k j : Nat), ghStop (server (1 + (j + k))) →
      ∀ acc, (get_github_commits_loop server (k + 1) (1 + j) acc).isSome := by
  intro k
  induction k with
  | zero =>
    intro j hstop acc
    match hs : server (1 + j) with
    | .conflict => rw [get_github_commits_loop, hs]; rfl
    | .notFound => rw [get_github_commits_loop, hs]; rfl
    | .ok data =>
      rw [Nat.add_zero, hs] at hstop
      have hlen : data.length < githubPageLimit := hstop
      rw [get_github_commits_loop, hs]
      by_cases he : data.isEmpty
      · simp [he]
      · simp [he, hlen]
  | succ k ih =>
    intro j hstop acc
    match hs : server (1 + j) with
    | .conflict => rw [get_github_commits_loop, hs]; rfl
    | .notFound => rw [get_github_commits_loop, hs]; rfl
    | .ok data =>
      rw [get_github_commits_loop, hs]
      by_cases he : data.isEmpty
      · simp [he]
      · by_cases hlen : data.length < githubPageLimit
        · simp [he, hlen]
        · have hstop' : ghStop (server (1 + ((j + 1) + k))) := by
            rw [show j + 1 + k = j + (k + 1) from by omega]
            exact hstop
          simp only [he, Bool.false_eq_true, if_false, if_neg hlen]
          rw [show 1 + j + 1 = 1 + (j + 1) from by omega]
          exact ih (j + 1) hstop' (acc ++ data)

/-- C3 (amended): neither pagination loop has an iteration cap — each
terminates exactly when its response stream presents a break condition
(not-found — for GitHub also 409 —, an empty page, or a page shorter than
the page-size limit) at some iteration of its cursor trajectory. -/
theorem pagination_terminates_iff_stop :
    (∀ server : Nat → AzResp,
      azureTerminates server ↔ ∃ k, azStop (server (azureSkipAt server k))) ∧
    (∀ server : Nat → GhResp,
      githubTerminates server ↔ ∃ k, ghStop (server (1 + k))) := by
  constructor
  · intro server
    constructor
    · intro hterm
      by_contra hno
      push_neg at hno
      obtain ⟨fuel, hsome⟩ := hterm
      have h0 := azure_loop_none_of_no_stop server hno fuel 0 []
      rw [show azureSkipAt server 0 = 0 from rfl] at h0
      rw [get_azure_commits, h0] at hsome
      simp at hsome
    · rintro ⟨k, hk⟩
      exact ⟨k + 1, by
        have := azure_loop_some_of_stop server k 0 (by simpa using hk) []
        simpa [get_azure_commits] using this⟩
  · intro server
    constructor
    · intro hterm
      by_contra hno
      push_neg at hno
      obtain ⟨fuel, hsome⟩ := hterm
      have h0 := github_loop_none_of_no_stop server hno fuel 0 []
      rw [get_github_commits] at hsome
      rw [show (1 : Nat) + 0 = 1 from rfl] at h0
      rw [h0] at hsome
      simp at hsome
    · rintro ⟨k, hk⟩
      exact ⟨k + 1, by
        have := github_loop_some_of_stop server k 0 (by simpa using hk) []
        simpa [get_github_commits] using this⟩

/-- Witness for `pagination_terminates_iff_stop`: a server whose first
page is empty terminates both loops. -/
theorem pagination_terminates_iff_stop_witness :
    azureTerminates (fun _ => AzResp.ok []) ∧
    githubTerminates (fun _ => GhResp.ok []) :=
  ⟨(pagination_terminates_iff_stop.1 (fun _ => AzResp.ok [])).mpr
      ⟨0, by simp [azStop, azurePageLimit]⟩,
   (pagination_terminates_iff_stop.2 (fun _ => GhResp.ok [])).mpr
      ⟨0, by simp [ghStop, githubPageLimit]⟩⟩

/-- An Azure endpoint that always answers with a full page. -/
def azFullServer : Nat → AzResp :=
  fun _ => AzResp.ok (List.replicate azurePageLimit sampleCommit)

/-- A GitHub endpoint that always answers with a full page. -/
def ghFullServer : Nat → GhResp :=
  fun _ => GhResp.ok (List.replicate githubPageLimit sampleCommit)

/-- C3 counterexample: against a source returning pages of exactly the
page-size limit indefinitely, neither fetcher's loop ever terminates — no
defensive iteration cap exists in the code. -/
theorem pagination_no_cap_counterexample :
    ¬ azureTerminates azFullServer ∧ ¬ githubTerminates ghFullServer := by
  constructor
  · rintro ⟨fuel, hsome⟩
    have hno : ∀ k, ¬ azStop (azFullServer (azureSkipAt azFullServer k)) := by
      intro k
      show ¬ (List.replicate azurePageLimit sampleCommit).length < azurePageLimit
      rw [List.length_replicate]
      omega
    have h0 := azure_loop_none_of_no_stop azFullServer hno fuel 0 []
    rw [show azureSkipAt azFullServer 0 = 0 from rfl] at h0
    rw [get_azure_commits, h0] at hsome
    simp at hsome
  · rintro ⟨fuel, hsome⟩
    have hno : ∀ k, ¬ ghStop (ghFullServer (1 + k)) := by
      intro k
      show ¬ (List.replicate githubPageLimit sampleCommit).length < githubPageLimit
      rw [List.length_replicate]
      omega
    have h0 := github_loop_none_of_no_stop ghFullServer hno fuel 0 []
    rw [get_github_commits] at hsome
    rw [show (1 : Nat) + 0 = 1 from rfl] at h0
    rw [h0] at hsome
    simp at hsome

end Heatmap
